import Mathlib

/-!
# Verification of the OrderEngine limit-order matching core

Shallow embedding of the C++ sources of the OrderEngine repository:

* `OrderSide`, `Order`, `Trade` embed the structs of `order_book.hpp`.
  Prices are `double` in the source; the engine never does arithmetic on
  prices, only comparisons and map-key ordering, so they are embedded as
  exact rationals (`ℚ`).  Timestamps are diagnostics only (never read by
  the matching logic) and are omitted.
* The two books are `std::multimap<double, Order, greater>` (buys) and
  `std::multimap<double, Order>` (sells); each is embedded as the list of
  its orders in iteration sequence (price-sorted, FIFO within a price).
  `insertBuy` / `insertSell` embed `emplace`, which since C++11 inserts at
  the upper bound of the equal-key range, i.e. after every order whose key
  compares not-after the new key.
* `matchFuel` embeds the `while` loop of `OrderBook::matchOrders` with an
  explicit fuel parameter; `matchFuel_stable` below proves that a fuel of
  `buys.length + sells.length` always reaches the loop's exit condition,
  so `matchOrders` (the fueled instance) is the loop's result.
* `executeTrade` only emits when a trade callback is installed; the
  boolean `cb` parameter embeds the presence of the callback, and the
  emitted-trade list of a step is `[trade]` or `[]` accordingly.
* `processOrder` embeds `OrderBook::processOrder` / `OrderBook::addOrder`
  (insert into own side, then run the matching loop); the latency
  bookkeeping it also performs is embedded separately by `LatencyStats`.
* `processOrders` runs a finite submission sequence through the single
  matching worker, starting from empty books, in submission order, which
  is the order the worker dequeues them in.
-/

set_option maxRecDepth 4096

namespace OrderEngine

/-- Embeds `enum class OrderSide { BUY, SELL }`. -/
inductive OrderSide : Type where
  | BUY : OrderSide
  | SELL : OrderSide
deriving DecidableEq, Repr

/-- Embeds `struct Order` (id, side, price, quantity) as the matching
engine holds it; the timestamp field is never read by the matching logic
and is omitted.  The price is a `double` in the source; the engine does
no arithmetic on it, only comparisons, and every engine claim constructs
finite prices, so it is specialized here to an exact rational —
`ParsedOrder` below keeps the full `double` domain on the decoder side,
where `std::stod` can also produce `±inf` and NaN. -/
structure Order : Type where
  id : Nat
  side : OrderSide
  price : ℚ
  quantity : Nat
deriving DecidableEq, Repr

/-- Embeds `struct Trade` (buy id, sell id, price, quantity); the timestamp
field is diagnostics only and is omitted. -/
structure Trade : Type where
  buy_order_id : Nat
  sell_order_id : Nat
  price : ℚ
  quantity : Nat
deriving DecidableEq, Repr

/-- Embeds `buy_orders_.emplace(order->price, std::move(order))`: the buy
book is keyed with `std::greater`, so iteration is by descending price and
`emplace` inserts after every entry whose price is `≥` the new price
(upper bound of the equal-key range, preserving FIFO within a level). -/
def insertBuy (o : Order) : List Order → List Order
  | [] => [o]
  | x :: xs => if o.price ≤ x.price then x :: insertBuy o xs else o :: x :: xs

/-- Embeds `sell_orders_.emplace(order->price, std::move(order))`: the sell
book is keyed ascending, and `emplace` inserts after every entry whose
price is `≤` the new price. -/
def insertSell (o : Order) : List Order → List Order
  | [] => [o]
  | x :: xs => if x.price ≤ o.price then x :: insertSell o xs else o :: x :: xs

/-- The state of `OrderBook` after the matching loop, plus the trades the
loop emitted through the callback, in emission order. -/
structure MatchResult : Type where
  buys : List Order
  sells : List Order
  trades : List Trade
deriving DecidableEq, Repr

/-- `uint32_t trade_quantity = std::min(buy_order.quantity, sell_order.quantity)`. -/
def tradeQty (b s : Order) : Nat :=
  min b.quantity s.quantity

/-- `order.quantity -= trade_quantity` (never underflows: `q` is the `min`). -/
def fillOrder (o : Order) (q : Nat) : Order :=
  { o with quantity := o.quantity - q }

/-- `if (order.quantity == 0) { book.erase(it); }`: the (already decremented)
head order is dropped from its book exactly when its quantity reached 0. -/
def eraseFilled (o : Order) (rest : List Order) : List Order :=
  if o.quantity = 0 then rest else o :: rest

/-- Embeds `OrderBook::executeTrade`: when a trade callback is installed
(`cb = true`) a `Trade` carrying the buy id, the sell id, the *sell
order's* price (`sell_order.price` in the source, unconditionally) and the
traded quantity is emitted; without a callback nothing is emitted. -/
def executeTrade (cb : Bool) (b s : Order) (q : Nat) : List Trade :=
  if cb then [⟨b.id, s.id, s.price, q⟩] else []

/-- Embeds the body of `OrderBook::matchOrders` with explicit fuel.  Each
loop iteration reads the heads of both books (`begin()` of each multimap:
highest buy price, lowest sell price), exits when a book is empty or
`buy_it->first < sell_it->first`, otherwise trades
`min(buy.quantity, sell.quantity)`, emits through `executeTrade` (before
the decrements, exactly as the source does), decrements both quantities,
and erases each order whose quantity reached zero.  `matchFuel_stable`
shows the fuel chosen in `matchOrders` always suffices, so the artificial
fuel-0 exit is never taken there. -/
def matchFuel (cb : Bool) : Nat → List Order → List Order → MatchResult
  | 0, buys, sells => ⟨buys, sells, []⟩
  | _ + 1, [], sells => ⟨[], sells, []⟩
  | _ + 1, b :: bs, [] => ⟨b :: bs, [], []⟩
  | fuel + 1, b :: bs, s :: ss =>
    if b.price < s.price then ⟨b :: bs, s :: ss, []⟩
    else
      let q := tradeQty b s
      let r := matchFuel cb fuel (eraseFilled (fillOrder b q) bs) (eraseFilled (fillOrder s q) ss)
      ⟨r.buys, r.sells, executeTrade cb b s q ++ r.trades⟩

/-- `OrderBook::matchOrders`: the loop of `matchFuel` run to completion;
every iteration erases at least one order (the one attaining the `min`),
so `buys.length + sells.length` iterations always reach the exit. -/
def matchOrders (cb : Bool) (buys sells : List Order) : MatchResult :=
  matchFuel cb (buys.length + sells.length) buys sells

/-- Embeds `OrderBook::processOrder` / `OrderBook::addOrder`: insert the
incoming order into its own side's book, then run the matching loop. -/
def processOrder (cb : Bool) (buys sells : List Order) (o : Order) : MatchResult :=
  match o.side with
  | OrderSide.BUY => matchOrders cb (insertBuy o buys) sells
  | OrderSide.SELL => matchOrders cb buys (insertSell o sells)

/-- One dequeue step of the matching worker: process the next order
against the books accumulated so far and append its trades. -/
def submitStep (cb : Bool) (r : MatchResult) (o : Order) : MatchResult :=
  let r2 := processOrder cb r.buys r.sells o
  ⟨r2.buys, r2.sells, r.trades ++ r2.trades⟩

/-- Run a finite submission sequence through the matching worker, starting
from empty books, in submission order; trades of successive orders are
concatenated in emission order. -/
def processOrders (cb : Bool) (orders : List Order) : MatchResult :=
  orders.foldl (submitStep cb) ⟨[], [], []⟩

/-- Total resting quantity of a book (`Σ quantity resting`). -/
def totalQty (l : List Order) : Nat :=
  (l.map Order.quantity).sum

/-- Total traded quantity of a trade list (`Σ quantity traded`). -/
def totalTradeQty (l : List Trade) : Nat :=
  (l.map Trade.quantity).sum

/-- The buy-side submissions of a sequence. -/
def buysOf (orders : List Order) : List Order :=
  orders.filter (fun o => o.side = OrderSide.BUY)

/-- The sell-side submissions of a sequence. -/
def sellsOf (orders : List Order) : List Order :=
  orders.filter (fun o => o.side = OrderSide.SELL)

/-! ## The JSON line decoder (`OrderParser`, `parser.cpp`)

`OrderParser::parseOrder` scans a raw byte string with
`std::string::find`, `find_first_of`, `substr` and manual
whitespace-skipping; the numeric conversions are `std::stod` and
`std::stoul`, whose exceptions the surrounding `try`/`catch` turns into a
rejected line (`std::nullopt`).  Strings are embedded as `List Char`,
`std::string::npos` as `Option.none` of the search helpers, and the
parsed `double` as a `StodVal`: an exact rational when finite, or one of
the `±inf` / NaN values `std::stod` also produces. -/

/-- `std::string::find(pat, i)` scan: the least index `≥ i` at which `pat`
occurs, `none` standing for `npos`. -/
def findAux (pat : List Char) : List Char → Nat → Option Nat
  | [], i => if pat.isPrefixOf [] then some i else none
  | c :: rest, i =>
    if pat.isPrefixOf (c :: rest) then some i else findAux pat rest (i + 1)

/-- `json_str.find(pat)`. -/
def strFind (s pat : List Char) : Option Nat :=
  findAux pat s 0

/-- `json_str.find(pat, pos)`. -/
def strFindFrom (s pat : List Char) (pos : Nat) : Option Nat :=
  (findAux pat (s.drop pos) 0).map (· + pos)

/-- `std::string::find_first_of(set, i)` scan over a character set. -/
def firstOfAux (set : List Char) : List Char → Nat → Option Nat
  | [], _ => none
  | c :: rest, i => if c ∈ set then some i else firstOfAux set rest (i + 1)

/-- `json_str.find_first_of(set, pos)`. -/
def strFindFirstOf (s set : List Char) (pos : Nat) : Option Nat :=
  (firstOfAux set (s.drop pos) 0).map (· + pos)

/-- `json_str.substr(pos, count)`. -/
def substr (s : List Char) (pos count : Nat) : List Char :=
  (s.drop pos).take count

/-- The whitespace set `" \t\n\r"` of the `trim` lambda in `parseOrder`. -/
def isTrimWs (c : Char) : Bool :=
  c == ' ' || c == '\t' || c == '\n' || c == '\r'

/-- `std::isspace` in the default locale, as used by `std::stod` /
`std::stoul` to skip leading whitespace. -/
def isCSpace (c : Char) : Bool :=
  c == ' ' || c == '\t' || c == '\n' || c == '\x0b' || c == '\x0c' || c == '\r'

/-- The `trim` lambda of `parseOrder`: erase leading and trailing
characters of `" \t\n\r"`. -/
def trimWS (s : List Char) : List Char :=
  ((s.dropWhile isTrimWs).reverse.dropWhile isTrimWs).reverse

/-- The `while (pos < len && (s[pos] == ' ' || s[pos] == '\t')) pos++;`
loops that skip blanks after `"price":` and `"quantity":`. -/
def skipSpaceTab (s : List Char) (pos : Nat) : Nat :=
  pos + ((s.drop pos).takeWhile (fun c => c == ' ' || c == '\t')).length

/-- `OrderParser::parseOrderSide`: accepts exactly `buy`, `BUY`, `sell`,
`SELL`; anything else throws `std::invalid_argument`, which the caller's
`catch` turns into a rejected line (`none` here). -/
def parseOrderSide (side_str : List Char) : Option OrderSide :=
  if side_str = "buy".data ∨ side_str = "BUY".data then some OrderSide.BUY
  else if side_str = "sell".data ∨ side_str = "SELL".data then some OrderSide.SELL
  else none

/-- Digit-string value, most significant first (`stod`'s / `stoul`'s
accumulation). -/
def digitsToNat (l : List Char) : Nat :=
  l.foldl (fun acc c => acc * 10 + (c.toNat - 48)) 0

/-- An optional leading `-` or `+` sign. -/
def readSign : List Char → Bool × List Char
  | '-' :: r => (true, r)
  | '+' :: r => (false, r)
  | r => (false, r)

/-- Value of an exponent tail after `e`/`E`: optional sign then digits;
if no digits follow, `stod` backtracks and the exponent contributes 0. -/
def expDigitsVal (r : List Char) : Int :=
  let sr := readSign r
  let ed := sr.2.takeWhile Char.isDigit
  if ed = [] then 0
  else if sr.1 then -(digitsToNat ed : Int) else (digitsToNat ed : Int)

/-- Optional exponent part of a `stod` literal. -/
def readExpVal : List Char → Int
  | 'e' :: r => expDigitsVal r
  | 'E' :: r => expDigitsVal r
  | _ => 0

/-- A `double` as `std::stod` can produce it: a finite value — kept as
the exact rational denoted by the accepted literal; the binary rounding
of in-range values to 53-bit mantissas is the one idealization of this
embedding — or one of the non-finite values `±inf` and NaN (NaN payloads
and the sign of NaN are not distinguished: no consumer of the parsed
price separates them). -/
inductive StodVal : Type where
  | fin : ℚ → StodVal
  | posInf : StodVal
  | negInf : StodVal
  | nan : StodVal
deriving DecidableEq, Repr

/-- The smallest decimal magnitude that `strtod`'s round-to-nearest-even
turns into `+inf`: the midpoint `2^1024 - 2^970` between
`DBL_MAX = 2^1024 - 2^971` and `2^1024`.  At or above it the rounded
result overflows and `std::stod` throws `std::out_of_range`.  Written as
a literal so that evaluation never unfolds a 1024-step power;
`dblOverflowBound_eq` checks it against the formula. -/
def dblOverflowBound : ℚ :=
  mkRat 179769313486231580793728971405303415079934132710037826936173778980444968292764750946649017977587207096330286416692887910946555547851940402630657488671505820681908902000708383676273854845817711531764475730270069855571366959622842914819860834936475292719074168444365510704342711559699508093042880177904174497792 1

/-- The smallest positive magnitude that still rounds to a normal
`double`: the midpoint `(2^53 - 1) / 2^1075` between the largest
subnormal and the smallest normal `2^-1022` (ties-to-even resolves the
midpoint upward to the normal).  A nonzero value strictly below it
underflows to a subnormal or to zero, `strtod` sets `ERANGE`, and
`std::stod` (libstdc++) throws `std::out_of_range`.  Written with
literals so that evaluation never unfolds a 1075-step power;
`dblUnderflowBound_eq` checks it against the formula. -/
def dblUnderflowBound : ℚ :=
  mkRat 9007199254740991
    404804506614621236704990693437834614099113299528284236713802716054860679135990693783920767402874248990374155728633623822779617474771586953734026799881477019843034848553132722728933815484186432682479535356945490137124014966849385397236206711298319112681620113024717539104666829230461005064372655017292012526615415482186989568

/-- The range check `std::stod` applies to a finite conversion result:
reject magnitudes that round to infinity (overflow) and nonzero
magnitudes that round below the normal range (underflow); otherwise
attach the sign. -/
def rangeCheckedFin (neg : Bool) (mag : ℚ) : Option StodVal :=
  if dblOverflowBound ≤ mag then none
  else if mag ≠ 0 ∧ mag < dblUnderflowBound then none
  else some (StodVal.fin (if neg then -mag else mag))

/-- Hexadecimal digit test, as `strtod` uses after a `0x` prefix. -/
def isHexDigitCh (c : Char) : Bool :=
  c.isDigit || (decide ('a' ≤ c) && decide (c ≤ 'f'))
    || (decide ('A' ≤ c) && decide (c ≤ 'F'))

/-- Value of one hexadecimal digit. -/
def hexDigitVal (c : Char) : Nat :=
  if c.isDigit then c.toNat - 48
  else if decide ('a' ≤ c) && decide (c ≤ 'f') then c.toNat - 87
  else c.toNat - 55

/-- Hex-digit-string value, most significant first. -/
def hexToNat (l : List Char) : Nat :=
  l.foldl (fun acc c => acc * 16 + hexDigitVal c) 0

/-- `nan` (case-insensitive) starts the remaining input: `strtod` accepts
it (optionally followed by a payload in parentheses, which does not
change the value) and yields NaN. -/
def isNanPrefix : List Char → Bool
  | c1 :: c2 :: c3 :: _ =>
    (c1 == 'n' || c1 == 'N') && (c2 == 'a' || c2 == 'A') && (c3 == 'n' || c3 == 'N')
  | _ => false

/-- `inf` (case-insensitive) starts the remaining input: `strtod` accepts
`inf` and `infinity` and yields infinity of the read sign. -/
def isInfPrefix : List Char → Bool
  | c1 :: c2 :: c3 :: _ =>
    (c1 == 'i' || c1 == 'I') && (c2 == 'n' || c2 == 'N') && (c3 == 'f' || c3 == 'F')
  | _ => false

/-- After a `0x` prefix `strtod` commits to a hexadecimal literal only
when a hex digit follows, directly or after a decimal point; otherwise
the accepted portion is just the leading `0`. -/
def hexDigitsFollow : List Char → Bool
  | d :: rest =>
    isHexDigitCh d
      || (d == '.' && (match rest with | e :: _ => isHexDigitCh e | [] => false))
  | [] => false

/-- The remaining input starts a hexadecimal `strtod` literal. -/
def isHexPrefix : List Char → Bool
  | '0' :: x :: rest => (x == 'x' || x == 'X') && hexDigitsFollow rest
  | _ => false

/-- Binary exponent of a hexadecimal literal: `p`/`P`, optional sign,
decimal digits; with no digits `strtod` backtracks and it contributes
a factor of `2^0`. -/
def readHexExpVal : List Char → Int
  | 'p' :: r => expDigitsVal r
  | 'P' :: r => expDigitsVal r
  | _ => 0

/-- Magnitude of a hexadecimal `strtod` literal, `rest` being the input
after the `0x`: hex digits with an optional hex fractional part and an
optional binary exponent, exactly `mantissa · 2^exp`. -/
def parseHexMag (rest : List Char) : ℚ :=
  let ip := rest.takeWhile isHexDigitCh
  let r2 := rest.dropWhile isHexDigitCh
  let fp := match r2 with
    | '.' :: r => r.takeWhile isHexDigitCh
    | _ => []
  let r3 := match r2 with
    | '.' :: r => r.dropWhile isHexDigitCh
    | _ => r2
  let e := readHexExpVal r3
  let mantNum : Nat := hexToNat ip * 16 ^ fp.length + hexToNat fp
  if 0 ≤ e then mkRat (mantNum * 2 ^ e.toNat) (16 ^ fp.length)
  else mkRat mantNum (16 ^ fp.length * 2 ^ (-e).toNat)

/-- Models `std::stod`: skip `isspace` whitespace, read an optional sign,
then accept — exactly as `strtod` does — a case-insensitive `nan` (NaN)
or `inf`/`infinity` (signed infinity), a hexadecimal literal
`0x h.h [p±d]`, or a decimal literal (digits with an optional fractional
part, at least one digit required overall, and an optional decimal
exponent).  The longest valid portion is converted and trailing bytes
are ignored; no conversion at all throws `std::invalid_argument`, and a
finite result outside the `double` range (see `dblOverflowBound` /
`dblUnderflowBound`) throws `std::out_of_range`; both throws are caught
by `parseOrder` — `none` here.  Finite values are exact rationals; their
rounding to 53-bit binary mantissas inside the representable range is
not modelled. -/
def parseDouble (s : List Char) : Option StodVal :=
  let s1 := s.dropWhile isCSpace
  let sr := readSign s1
  let body := sr.2
  if isNanPrefix body then some StodVal.nan
  else if isInfPrefix body then
    some (if sr.1 then StodVal.negInf else StodVal.posInf)
  else if isHexPrefix body then
    rangeCheckedFin sr.1 (parseHexMag (body.drop 2))
  else
    let ip := body.takeWhile Char.isDigit
    let s3 := body.dropWhile Char.isDigit
    let fp := match s3 with
      | '.' :: r => r.takeWhile Char.isDigit
      | _ => []
    let s4 := match s3 with
      | '.' :: r => r.dropWhile Char.isDigit
      | _ => s3
    if ip = [] ∧ fp = [] then none
    else
      let e := readExpVal s4
      let mantNum : Nat := digitsToNat ip * 10 ^ fp.length + digitsToNat fp
      let mag : ℚ := if 0 ≤ e then mkRat (mantNum * 10 ^ e.toNat) (10 ^ fp.length)
        else mkRat mantNum (10 ^ fp.length * 10 ^ (-e).toNat)
      rangeCheckedFin sr.1 mag

/-- Models `std::stoul(str)` (base 10) followed by the implicit narrowing
to `uint32_t` done at the call site being left to the caller: skip
`isspace` whitespace, optional sign, at least one digit required
(otherwise `std::invalid_argument` — `none`), value above
`ULONG_MAX = 2^64 - 1` throws `std::out_of_range` (`none`), and a `-`
sign wraps modulo `2^64` as unsigned arithmetic does. -/
def parseULong (s : List Char) : Option Nat :=
  let s1 := s.dropWhile isCSpace
  let sr := readSign s1
  let ds := sr.2.takeWhile Char.isDigit
  if ds = [] then none
  else
    let n := digitsToNat ds
    if 2 ^ 64 ≤ n then none
    else some (if sr.1 then (2 ^ 64 - n) % 2 ^ 64 else n)

/-- `json_str.find("\"side\":")`'s pattern (7 characters). -/
def sidePat : List Char := ['"', 's', 'i', 'd', 'e', '"', ':']

/-- `json_str.find("\"price\":")`'s pattern (8 characters). -/
def pricePat : List Char := ['"', 'p', 'r', 'i', 'c', 'e', '"', ':']

/-- `json_str.find("\"quantity\":")`'s pattern (11 characters). -/
def quantityPat : List Char := ['"', 'q', 'u', 'a', 'n', 't', 'i', 't', 'y', '"', ':']

/-- The side-extraction block of `parseOrder`: find `"side":`, then
`side_start = find("\"", side_pos + 7) + 1` — note that when that `find`
returns `npos` the C++ `+ 1` wraps `side_start` to `0`, so the following
`side_start == npos` check can never fire — then `side_end = find("\"",
side_start)`, rejecting on `npos`, and take the characters between. -/
def extractSideStr (json_str : List Char) : Option (List Char) :=
  match strFind json_str sidePat with
  | none => none
  | some side_pos =>
    let side_start : Nat :=
      match strFindFrom json_str ['"'] (side_pos + 7) with
      | none => 0
      | some i => i + 1
    match strFindFrom json_str ['"'] side_start with
    | none => none
    | some side_end => some (substr json_str side_start (side_end - side_start))

/-- The price-extraction block of `parseOrder`: find `"price":`, skip
blanks after the colon, and take the characters up to the next `,` or
`}` (rejecting when there is none). -/
def extractPriceStr (json_str : List Char) : Option (List Char) :=
  match strFind json_str pricePat with
  | none => none
  | some price_pos =>
    let price_start := skipSpaceTab json_str (price_pos + 8)
    match strFindFirstOf json_str [',', '}'] price_start with
    | none => none
    | some price_end => some (substr json_str price_start (price_end - price_start))

/-- The quantity-extraction block of `parseOrder`, analogous to the price
block with the 11-character pattern `"quantity":`. -/
def extractQuantityStr (json_str : List Char) : Option (List Char) :=
  match strFind json_str quantityPat with
  | none => none
  | some quantity_pos =>
    let quantity_start := skipSpaceTab json_str (quantity_pos + 11)
    match strFindFirstOf json_str [',', '}'] quantity_start with
    | none => none
    | some quantity_end =>
      some (substr json_str quantity_start (quantity_end - quantity_start))

/-- The `struct Order` the parser constructs, with the price kept in the
full `double` domain (`StodVal`): `std::stod` can hand the constructor an
infinity or NaN.  The matching-engine embedding's `Order` specializes the
price to finite rationals, the only price values the engine claims
exercise (the engine itself never constructs non-finite prices). -/
structure ParsedOrder : Type where
  id : Nat
  side : OrderSide
  price : StodVal
  quantity : Nat
deriving DecidableEq, Repr

/-- `OrderParser::parseOrder`.  The C++ computes the three key positions,
rejects if any is `npos`, extracts the three raw substrings with early
returns, trims each, then converts side, price and quantity in that
order; every failure path (missing key, missing delimiter, or a throwing
conversion) returns `std::nullopt`.  The extractions are pure, so the
sequential binds below are observably the same function; the fresh id
from `next_order_id_++` is a parameter, and the `uint32_t` narrowing of
the `stoul` result happens at the `Order` construction. -/
def parseOrder (next_order_id : Nat) (json_str : List Char) : Option ParsedOrder := do
  let side_raw ← extractSideStr json_str
  let price_raw ← extractPriceStr json_str
  let quantity_raw ← extractQuantityStr json_str
  let side ← parseOrderSide (trimWS side_raw)
  let price ← parseDouble (trimWS price_raw)
  let quantity ← parseULong (trimWS quantity_raw)
  some ⟨next_order_id, side, price, quantity % 2 ^ 32⟩

def BuySorted (l : List Order) : Prop :=
  l.Pairwise (fun a b => b.price ≤ a.price)

def SellSorted (l : List Order) : Prop :=
  l.Pairwise (fun a b => a.price ≤ b.price)

/-- The books of a `MatchResult` are non-crossing: every resting bid is
strictly below every resting ask (so in particular the best bid is
strictly below the best ask whenever both books are non-empty). -/
def NonCrossing (r : MatchResult) : Prop :=
  ∀ b ∈ r.buys, ∀ s ∈ r.sells, b.price < s.price

/-- The submissions of spec scenario S3 shifted to the sell-aggressor case:
a buy at 100 rests, then a sell at 99 crosses it. -/
def c1Orders : List Order :=
  [⟨1, OrderSide.BUY, 100, 10⟩, ⟨2, OrderSide.SELL, 99, 5⟩]

/-- The submissions of spec scenario S6: two buys at the same price, then
a sell that can fill exactly one of them. -/
def c4Orders : List Order :=
  [⟨1, OrderSide.BUY, 100, 5⟩, ⟨2, OrderSide.BUY, 100, 5⟩, ⟨3, OrderSide.SELL, 100, 5⟩]

/-- The submissions of spec scenario S4: three resting sells, then a buy
at 100.75 that walks the book. -/
def c5Orders : List Order :=
  [⟨1, OrderSide.SELL, 100, 3⟩, ⟨2, OrderSide.SELL, mkRat 201 2, 4⟩,
   ⟨3, OrderSide.SELL, 101, 5⟩, ⟨4, OrderSide.BUY, mkRat 403 4, 5⟩]

/-! ## Latency statistics (`struct LatencyStats`)

The four counters are `std::atomic<uint64_t>`; every update happens on the
single matching worker, so the compare-and-swap loops of `recordLatency`
behave as plain read-modify-write updates, and the wraparound of the
`uint64_t` additions is kept explicit (`% 2^64`).  The `double`-returning
getters are embedded as exact rationals. -/

structure LatencyStats : Type where
  total_orders : Nat
  total_latency_ns : Nat
  min_latency_ns : Nat
  max_latency_ns : Nat
deriving DecidableEq, Repr

/-- The member initializers `{0, 0, UINT64_MAX, 0}`. -/
def LatencyStats.init : LatencyStats :=
  ⟨0, 0, 2 ^ 64 - 1, 0⟩

/-- `LatencyStats::recordLatency`: increment the order count, add the
latency to the running sum (both wrapping `uint64_t` additions), and run
the CAS loops that lower `min_latency_ns` and raise `max_latency_ns`. -/
def recordLatency (st : LatencyStats) (latency_ns : Nat) : LatencyStats :=
  ⟨(st.total_orders + 1) % 2 ^ 64,
   (st.total_latency_ns + latency_ns) % 2 ^ 64,
   min st.min_latency_ns latency_ns,
   max st.max_latency_ns latency_ns⟩

/-- `LatencyStats::getAverageLatencyUs`:
`orders > 0 ? (total_latency_ns / 1000.0) / orders : 0.0`. -/
def getAverageLatencyUs (st : LatencyStats) : ℚ :=
  if 0 < st.total_orders
  then ((st.total_latency_ns : ℚ) / 1000) / (st.total_orders : ℚ)
  else 0

/-- `LatencyStats::getMinLatencyUs`:
`min_ns != UINT64_MAX ? min_ns / 1000.0 : 0.0`. -/
def getMinLatencyUs (st : LatencyStats) : ℚ :=
  if st.min_latency_ns ≠ 2 ^ 64 - 1 then (st.min_latency_ns : ℚ) / 1000 else 0

/-- `LatencyStats::getMaxLatencyUs`: `max_latency_ns / 1000.0`. -/
def getMaxLatencyUs (st : LatencyStats) : ℚ :=
  (st.max_latency_ns : ℚ) / 1000

/-- The statistics readable after a sequence of per-order latency samples,
starting from a freshly constructed `LatencyStats`. -/
def runLatencies (samples : List Nat) : LatencyStats :=
  samples.foldl recordLatency LatencyStats.init

/-- Two samples of `2^63` ns each: their `uint64_t` running sum wraps to
zero while both remain recorded in the count and in `min`/`max`. -/
def c7Overflow : LatencyStats :=
  recordLatency (recordLatency LatencyStats.init (2 ^ 63)) (2 ^ 63)

/-- A syntactically well-formed line whose quantity is zero. -/
def c8ZeroQtyLine : List Char :=
  "\x7b\"side\":\"buy\",\"price\":100.5,\"quantity\":0\x7d".data

/-- A syntactically well-formed line whose price is negative. -/
def c8NegPriceLine : List Char :=
  "\x7b\"side\":\"sell\",\"price\":-5.25,\"quantity\":10\x7d".data

example :
    processOrders true
      [⟨1, OrderSide.BUY, 100, 10⟩, ⟨2, OrderSide.SELL, 100, 10⟩] =
      ⟨[], [], [⟨1, 2, 100, 10⟩]⟩ := by decide

example :
    processOrders true
      [⟨1, OrderSide.BUY, 100, 10⟩, ⟨2, OrderSide.SELL, 99, 5⟩] =
      ⟨[⟨1, OrderSide.BUY, 100, 5⟩], [], [⟨1, 2, 99, 5⟩]⟩ := by decide

example :
    parseOrder 1 "\x7b\"side\":\"buy\",\"price\":100.5,\"quantity\":10\x7d".data
      = some ⟨1, OrderSide.BUY, StodVal.fin (mkRat 201 2), 10⟩ := by decide

example :
    parseOrder 1 "\x7b\"side\":\"buy\",\"price\":nan,\"quantity\":5\x7d".data
      = some ⟨1, OrderSide.BUY, StodVal.nan, 5⟩ := by decide

example :
    parseOrder 1 "\x7b\"side\":\"sell\",\"price\":-inf,\"quantity\":5\x7d".data
      = some ⟨1, OrderSide.SELL, StodVal.negInf, 5⟩ := by decide

example :
    parseOrder 1 "\x7b\"side\":\"buy\",\"price\":0x1.8p1,\"quantity\":5\x7d".data
      = some ⟨1, OrderSide.BUY, StodVal.fin 3, 5⟩ := by decide

example :
    parseOrder 1 "\x7b\"side\":\"buy\",\"price\":1e330,\"quantity\":5\x7d".data
      = none := by decide

example : parseDouble "1e-330".data = none := by decide

/-! ## Basic lemmas about the matching step -/

theorem fillOrder_price (o : Order) (q : Nat) : (fillOrder o q).price = o.price := rfl

theorem fillOrder_id (o : Order) (q : Nat) : (fillOrder o q).id = o.id := rfl

theorem fillOrder_side (o : Order) (q : Nat) : (fillOrder o q).side = o.side := rfl

/-- Each iteration of the matching loop erases at least one order: the
traded quantity is the `min` of the two head quantities, so at least one
head's decremented quantity is zero. -/
theorem step_length (b s : Order) (bs ss : List Order) :
    (eraseFilled (fillOrder b (tradeQty b s)) bs).length
      + (eraseFilled (fillOrder s (tradeQty b s)) ss).length
      < (b :: bs).length + (s :: ss).length := by
  rcases Nat.le_total b.quantity s.quantity with h | h
  · have hb : (fillOrder b (tradeQty b s)).quantity = 0 := by
      simp [fillOrder, tradeQty, Nat.min_eq_left h]
    unfold eraseFilled
    rw [if_pos hb]
    split <;> simp <;> omega
  · have hs : (fillOrder s (tradeQty b s)).quantity = 0 := by
      simp [fillOrder, tradeQty, Nat.min_eq_right h]
    unfold eraseFilled
    rw [if_pos hs]
    split <;> simp <;> omega

/-- Removing the filled head returns the head's pre-decrement quantity to
the traded total: quantity is conserved across one erase. -/
theorem eraseFilled_totalQty (o : Order) (q : Nat) (rest : List Order) (h : q ≤ o.quantity) :
    totalQty (eraseFilled (fillOrder o q) rest) + q = totalQty (o :: rest) := by
  unfold eraseFilled fillOrder totalQty
  split <;> simp_all <;> omega

theorem mem_eraseFilled {x o : Order} {rest : List Order} :
    x ∈ eraseFilled o rest → x = o ∨ x ∈ rest := by
  unfold eraseFilled
  split <;> simp_all <;> tauto

/-! ## Fuel stability: the loop terminates within `buys.length + sells.length`
iterations, so the fueled instance in `matchOrders` computes the loop's limit. -/

theorem matchFuel_succ (cb : Bool) :
    ∀ (fuel : Nat) (buys sells : List Order),
      buys.length + sells.length ≤ fuel →
      matchFuel cb (fuel + 1) buys sells = matchFuel cb fuel buys sells := by
  intro fuel
  induction fuel with
  | zero =>
    intro buys sells h
    match buys, sells with
    | [], [] => rfl
    | b :: bs, _ => simp at h
    | [], s :: ss => simp at h
  | succ n ih =>
    intro buys sells h
    match buys, sells with
    | [], sells => rfl
    | b :: bs, [] => rfl
    | b :: bs, s :: ss =>
      by_cases hp : b.price < s.price
      · simp only [matchFuel, if_pos hp]
      · have hlen := step_length b s bs ss
        have hrec :
            (eraseFilled (fillOrder b (tradeQty b s)) bs).length
              + (eraseFilled (fillOrder s (tradeQty b s)) ss).length ≤ n := by
          simp only [List.length_cons] at hlen h
          omega
        simp only [matchFuel, if_neg hp]
        rw [ih _ _ hrec]

theorem matchFuel_stable (cb : Bool) (buys sells : List Order) :
    ∀ k, buys.length + sells.length ≤ k →
      matchFuel cb k buys sells = matchOrders cb buys sells := by
  intro k
  induction k with
  | zero =>
    intro h
    have hb : buys = [] := by cases buys <;> simp_all
    have hs : sells = [] := by cases sells <;> simp_all
    subst hb; subst hs
    rfl
  | succ n ih =>
    intro h
    rcases Nat.lt_or_ge n (buys.length + sells.length) with hlt | hge
    · have hexact : buys.length + sells.length = n + 1 := by omega
      unfold matchOrders
      rw [hexact]
    · rw [matchFuel_succ cb n buys sells hge, ih hge]

/-! ## Conservation of quantity through the matching loop -/

theorem matchFuel_conserve :
    ∀ (fuel : Nat) (buys sells : List Order),
      totalQty buys
          = totalTradeQty (matchFuel true fuel buys sells).trades
            + totalQty (matchFuel true fuel buys sells).buys
        ∧ totalQty sells
          = totalTradeQty (matchFuel true fuel buys sells).trades
            + totalQty (matchFuel true fuel buys sells).sells := by
  intro fuel
  induction fuel with
  | zero => intro buys sells; simp [matchFuel, totalTradeQty]
  | succ n ih =>
    intro buys sells
    match buys, sells with
    | [], sells => simp [matchFuel, totalTradeQty]
    | b :: bs, [] => simp [matchFuel, totalTradeQty]
    | b :: bs, s :: ss =>
      by_cases hp : b.price < s.price
      · simp [matchFuel, if_pos hp, totalTradeQty]
      · have hqb : tradeQty b s ≤ b.quantity := Nat.min_le_left _ _
        have hqs : tradeQty b s ≤ s.quantity := Nat.min_le_right _ _
        have hb := eraseFilled_totalQty b (tradeQty b s) bs hqb
        have hs := eraseFilled_totalQty s (tradeQty b s) ss hqs
        have := ih (eraseFilled (fillOrder b (tradeQty b s)) bs)
          (eraseFilled (fillOrder s (tradeQty b s)) ss)
        simp only [matchFuel, if_neg hp, executeTrade, if_true, ite_true]
        simp only [totalTradeQty, List.map_cons, List.sum_cons, List.map_append,
          List.sum_append, List.map_nil, List.sum_nil] at *
        omega

/-! ## Books do not depend on the presence of the trade callback -/

theorem matchFuel_callback_free :
    ∀ (fuel : Nat) (buys sells : List Order),
      (matchFuel false fuel buys sells).buys = (matchFuel true fuel buys sells).buys
        ∧ (matchFuel false fuel buys sells).sells = (matchFuel true fuel buys sells).sells
        ∧ (matchFuel false fuel buys sells).trades = [] := by
  intro fuel
  induction fuel with
  | zero => intro buys sells; simp [matchFuel]
  | succ n ih =>
    intro buys sells
    match buys, sells with
    | [], sells => simp [matchFuel]
    | b :: bs, [] => simp [matchFuel]
    | b :: bs, s :: ss =>
      by_cases hp : b.price < s.price
      · simp [matchFuel, if_pos hp]
      · have := ih (eraseFilled (fillOrder b (tradeQty b s)) bs)
          (eraseFilled (fillOrder s (tradeQty b s)) ss)
        simp only [matchFuel, if_neg hp, executeTrade]
        simp_all

/-! ## Non-crossing of the residual books -/

theorem matchFuel_nocross (cb : Bool) :
    ∀ (fuel : Nat) (buys sells : List Order) (b s : Order) (bs2 ss2 : List Order),
      buys.length + sells.length ≤ fuel →
      (matchFuel cb fuel buys sells).buys = b :: bs2 →
      (matchFuel cb fuel buys sells).sells = s :: ss2 →
      b.price < s.price := by
  intro fuel
  induction fuel with
  | zero =>
    intro buys sells b s bs2 ss2 hlen hb hs
    have : buys = [] := by cases buys <;> simp_all
    subst this
    simp [matchFuel] at hb
  | succ n ih =>
    intro buys sells b s bs2 ss2 hlen hb hs
    match buys, sells with
    | [], sells => simp [matchFuel] at hb
    | b0 :: bs, [] => simp [matchFuel] at hs
    | b0 :: bs, s0 :: ss =>
      by_cases hp : b0.price < s0.price
      · simp only [matchFuel, if_pos hp] at hb hs
        cases hb; cases hs
        exact hp
      · have hlen2 := step_length b0 s0 bs ss
        have hrec :
            (eraseFilled (fillOrder b0 (tradeQty b0 s0)) bs).length
              + (eraseFilled (fillOrder s0 (tradeQty b0 s0)) ss).length ≤ n := by
          simp only [List.length_cons] at hlen2 hlen
          omega
        simp only [matchFuel, if_neg hp] at hb hs
        exact ih _ _ b s bs2 ss2 hrec hb hs

theorem mem_insertBuy {x o : Order} :
    ∀ {l : List Order}, x ∈ insertBuy o l → x = o ∨ x ∈ l := by
  intro l
  induction l with
  | nil => intro h; simp [insertBuy] at h; tauto
  | cons y ys ih =>
    intro h
    unfold insertBuy at h
    split at h
    · rcases List.mem_cons.mp h with h | h
      · right; simp [h]
      · rcases ih h with h | h
        · tauto
        · right; exact List.mem_cons_of_mem _ h
    · rcases List.mem_cons.mp h with h | h
      · tauto
      · tauto

theorem mem_insertSell {x o : Order} :
    ∀ {l : List Order}, x ∈ insertSell o l → x = o ∨ x ∈ l := by
  intro l
  induction l with
  | nil => intro h; simp [insertSell] at h; tauto
  | cons y ys ih =>
    intro h
    unfold insertSell at h
    split at h
    · rcases List.mem_cons.mp h with h | h
      · right; simp [h]
      · rcases ih h with h | h
        · tauto
        · right; exact List.mem_cons_of_mem _ h
    · rcases List.mem_cons.mp h with h | h
      · tauto
      · tauto

theorem insertBuy_sorted {o : Order} :
    ∀ {l : List Order}, BuySorted l → BuySorted (insertBuy o l) := by
  intro l
  induction l with
  | nil => intro _; simp [insertBuy, BuySorted]
  | cons y ys ih =>
    intro hsort
    rcases (List.pairwise_cons.mp hsort) with ⟨hy, hys⟩
    unfold insertBuy
    split
    case isTrue hle =>
      refine List.pairwise_cons.mpr ⟨?_, ih hys⟩
      intro z hz
      rcases mem_insertBuy hz with h | h
      · rw [h]; exact hle
      · exact hy z h
    case isFalse hlt =>
      refine List.pairwise_cons.mpr ⟨?_, hsort⟩
      intro z hz
      rcases List.mem_cons.mp hz with h | h
      · rw [h]; exact le_of_lt (lt_of_not_le hlt)
      · exact le_trans (hy z h) (le_of_lt (lt_of_not_le hlt))

theorem insertSell_sorted {o : Order} :
    ∀ {l : List Order}, SellSorted l → SellSorted (insertSell o l) := by
  intro l
  induction l with
  | nil => intro _; simp [insertSell, SellSorted]
  | cons y ys ih =>
    intro hsort
    rcases (List.pairwise_cons.mp hsort) with ⟨hy, hys⟩
    unfold insertSell
    split
    case isTrue hle =>
      refine List.pairwise_cons.mpr ⟨?_, ih hys⟩
      intro z hz
      rcases mem_insertSell hz with h | h
      · rw [h]; exact hle
      · exact hy z h
    case isFalse hlt =>
      refine List.pairwise_cons.mpr ⟨?_, hsort⟩
      intro z hz
      rcases List.mem_cons.mp hz with h | h
      · rw [h]; exact le_of_lt (lt_of_not_le hlt)
      · exact le_trans (le_of_lt (lt_of_not_le hlt)) (hy z h)

theorem eraseFilled_sorted_buy {o : Order} {rest : List Order}
    (h : BuySorted (o :: rest)) (q : Nat) :
    BuySorted (eraseFilled (fillOrder o q) rest) := by
  rcases List.pairwise_cons.mp h with ⟨hy, hys⟩
  unfold eraseFilled
  split
  · exact hys
  · exact List.pairwise_cons.mpr ⟨fun z hz => hy z hz, hys⟩

theorem eraseFilled_sorted_sell {o : Order} {rest : List Order}
    (h : SellSorted (o :: rest)) (q : Nat) :
    SellSorted (eraseFilled (fillOrder o q) rest) := by
  rcases List.pairwise_cons.mp h with ⟨hy, hys⟩
  unfold eraseFilled
  split
  · exact hys
  · exact List.pairwise_cons.mpr ⟨fun z hz => hy z hz, hys⟩

theorem matchFuel_sorted (cb : Bool) :
    ∀ (fuel : Nat) (buys sells : List Order),
      BuySorted buys → SellSorted sells →
      BuySorted (matchFuel cb fuel buys sells).buys
        ∧ SellSorted (matchFuel cb fuel buys sells).sells := by
  intro fuel
  induction fuel with
  | zero => intro buys sells hb hs; exact ⟨hb, hs⟩
  | succ n ih =>
    intro buys sells hb hs
    match buys, sells with
    | [], sells => exact ⟨List.Pairwise.nil, hs⟩
    | b :: bs, [] => exact ⟨hb, List.Pairwise.nil⟩
    | b :: bs, s :: ss =>
      by_cases hp : b.price < s.price
      · simp only [matchFuel, if_pos hp]
        exact ⟨hb, hs⟩
      · simp only [matchFuel, if_neg hp]
        exact ih _ _ (eraseFilled_sorted_buy hb _) (eraseFilled_sorted_sell hs _)

/-! ## Provenance of trades: the sell id and price of every emitted trade
are those of an order that was present in the sell book. -/

theorem matchFuel_sell_provenance (cb : Bool) (P : Nat → ℚ → Prop) :
    ∀ (fuel : Nat) (buys sells : List Order),
      (∀ o ∈ sells, P o.id o.price) →
      (∀ o ∈ (matchFuel cb fuel buys sells).sells, P o.id o.price)
        ∧ (∀ t ∈ (matchFuel cb fuel buys sells).trades, P t.sell_order_id t.price) := by
  intro fuel
  induction fuel with
  | zero => intro buys sells hP; exact ⟨hP, by simp [matchFuel]⟩
  | succ n ih =>
    intro buys sells hP
    match buys, sells with
    | [], sells => exact ⟨hP, by simp [matchFuel]⟩
    | b :: bs, [] => exact ⟨by simp [matchFuel], by simp [matchFuel]⟩
    | b :: bs, s :: ss =>
      by_cases hp : b.price < s.price
      · simp only [matchFuel, if_pos hp]
        exact ⟨hP, by simp⟩
      · have hP2 : ∀ o ∈ eraseFilled (fillOrder s (tradeQty b s)) ss, P o.id o.price := by
          intro o ho
          rcases mem_eraseFilled ho with h | h
          · rw [h, fillOrder_id, fillOrder_price]
            exact hP s (List.mem_cons_self _ _)
          · exact hP o (List.mem_cons_of_mem _ h)
        have hrec := ih (eraseFilled (fillOrder b (tradeQty b s)) bs)
          (eraseFilled (fillOrder s (tradeQty b s)) ss) hP2
        simp only [matchFuel, if_neg hp]
        refine ⟨hrec.1, ?_⟩
        intro t ht
        simp only [List.mem_append] at ht
        rcases ht with ht | ht
        · unfold executeTrade at ht
          split at ht
          · simp only [List.mem_singleton] at ht
            rw [ht]
            exact hP s (List.mem_cons_self _ _)
          · simp at ht
        · exact hrec.2 t ht

/-! ## Lifting the loop lemmas to `processOrder` and `processOrders` -/

theorem totalQty_insertBuy (o : Order) :
    ∀ l : List Order, totalQty (insertBuy o l) = o.quantity + totalQty l := by
  intro l
  induction l with
  | nil => simp [insertBuy, totalQty]
  | cons y ys ih =>
    unfold insertBuy
    split
    · simp only [totalQty, List.map_cons, List.sum_cons] at *
      omega
    · simp [totalQty]

theorem totalQty_insertSell (o : Order) :
    ∀ l : List Order, totalQty (insertSell o l) = o.quantity + totalQty l := by
  intro l
  induction l with
  | nil => simp [insertSell, totalQty]
  | cons y ys ih =>
    unfold insertSell
    split
    · simp only [totalQty, List.map_cons, List.sum_cons] at *
      omega
    · simp [totalQty]

theorem totalTradeQty_append (l1 l2 : List Trade) :
    totalTradeQty (l1 ++ l2) = totalTradeQty l1 + totalTradeQty l2 := by
  simp [totalTradeQty]

theorem matchOrders_noncross (cb : Bool) (buys sells : List Order)
    (hb : BuySorted buys) (hs : SellSorted sells) :
    NonCrossing (matchOrders cb buys sells) := by
  have hsorted := matchFuel_sorted cb (buys.length + sells.length) buys sells hb hs
  intro x hx y hy
  unfold matchOrders at hx hy
  rcases hbuys : (matchFuel cb (buys.length + sells.length) buys sells).buys
    with _ | ⟨b0, brest⟩
  · rw [hbuys] at hx; simp at hx
  · rcases hsells : (matchFuel cb (buys.length + sells.length) buys sells).sells
      with _ | ⟨s0, srest⟩
    · rw [hsells] at hy; simp at hy
    · have hhead : b0.price < s0.price :=
        matchFuel_nocross cb (buys.length + sells.length) buys sells b0 s0 brest srest
          (Nat.le_refl _) hbuys hsells
      have hxb : x.price ≤ b0.price := by
        have hsb := hsorted.1
        rw [hbuys] at hsb hx
        rcases List.mem_cons.mp hx with h | h
        · rw [h]
        · exact (List.pairwise_cons.mp hsb).1 x h
      have hys : s0.price ≤ y.price := by
        have hss := hsorted.2
        rw [hsells] at hss hy
        rcases List.mem_cons.mp hy with h | h
        · rw [h]
        · exact (List.pairwise_cons.mp hss).1 y h
      exact lt_of_le_of_lt hxb (lt_of_lt_of_le hhead hys)

theorem processOrder_sorted (cb : Bool) (buys sells : List Order) (o : Order)
    (hb : BuySorted buys) (hs : SellSorted sells) :
    BuySorted (processOrder cb buys sells o).buys
      ∧ SellSorted (processOrder cb buys sells o).sells := by
  unfold processOrder
  cases o.side
  · exact matchFuel_sorted cb _ _ _ (insertBuy_sorted hb) hs
  · exact matchFuel_sorted cb _ _ _ hb (insertSell_sorted hs)

theorem processOrder_noncross (cb : Bool) (buys sells : List Order) (o : Order)
    (hb : BuySorted buys) (hs : SellSorted sells) :
    NonCrossing (processOrder cb buys sells o) := by
  unfold processOrder
  cases o.side
  · exact matchOrders_noncross cb _ _ (insertBuy_sorted hb) hs
  · exact matchOrders_noncross cb _ _ hb (insertSell_sorted hs)

theorem processOrders_books_invariant (cb : Bool) :
    ∀ (orders : List Order) (r : MatchResult),
      BuySorted r.buys → SellSorted r.sells → NonCrossing r →
      BuySorted (orders.foldl (submitStep cb) r).buys
        ∧ SellSorted (orders.foldl (submitStep cb) r).sells
        ∧ NonCrossing (orders.foldl (submitStep cb) r) := by
  intro orders
  induction orders with
  | nil => intro r hb hs hnc; exact ⟨hb, hs, hnc⟩
  | cons o rest ih =>
    intro r hb hs hnc
    have hsorted := processOrder_sorted cb r.buys r.sells o hb hs
    have hnc2 := processOrder_noncross cb r.buys r.sells o hb hs
    simp only [List.foldl_cons]
    exact ih (submitStep cb r o) hsorted.1 hsorted.2 hnc2

theorem processOrders_noncross (cb : Bool) (orders : List Order) :
    NonCrossing (processOrders cb orders) := by
  have := processOrders_books_invariant cb orders ⟨[], [], []⟩
    List.Pairwise.nil List.Pairwise.nil (by intro b hb; simp at hb)
  exact this.2.2

theorem processOrders_sorted (cb : Bool) (orders : List Order) :
    BuySorted (processOrders cb orders).buys ∧ SellSorted (processOrders cb orders).sells := by
  have := processOrders_books_invariant cb orders ⟨[], [], []⟩
    List.Pairwise.nil List.Pairwise.nil (by intro b hb; simp at hb)
  exact ⟨this.1, this.2.1⟩

theorem submitStep_conserve (r : MatchResult) (o : Order) :
    totalQty (submitStep true r o).buys + totalTradeQty (submitStep true r o).trades
        = totalQty r.buys + totalTradeQty r.trades
          + (if o.side = OrderSide.BUY then o.quantity else 0)
      ∧ totalQty (submitStep true r o).sells + totalTradeQty (submitStep true r o).trades
        = totalQty r.sells + totalTradeQty r.trades
          + (if o.side = OrderSide.SELL then o.quantity else 0) := by
  unfold submitStep processOrder
  cases hside : o.side
  · have hcons := matchFuel_conserve ((insertBuy o r.buys).length + r.sells.length)
      (insertBuy o r.buys) r.sells
    have hins := totalQty_insertBuy o r.buys
    unfold matchOrders at *
    simp only [totalTradeQty_append]
    constructor <;> simp_all <;> omega
  · have hcons := matchFuel_conserve (r.buys.length + (insertSell o r.sells).length)
      r.buys (insertSell o r.sells)
    have hins := totalQty_insertSell o r.sells
    unfold matchOrders at *
    simp only [totalTradeQty_append]
    constructor <;> simp_all <;> omega

theorem processOrders_conserve_aux :
    ∀ (orders : List Order) (r : MatchResult),
      totalQty (orders.foldl (submitStep true) r).buys
          + totalTradeQty (orders.foldl (submitStep true) r).trades
        = totalQty r.buys + totalTradeQty r.trades + totalQty (buysOf orders)
      ∧ totalQty (orders.foldl (submitStep true) r).sells
          + totalTradeQty (orders.foldl (submitStep true) r).trades
        = totalQty r.sells + totalTradeQty r.trades + totalQty (sellsOf orders) := by
  intro orders
  induction orders with
  | nil => intro r; simp [buysOf, sellsOf, totalQty]
  | cons o rest ih =>
    intro r
    have hstep := submitStep_conserve r o
    have hrest := ih (submitStep true r o)
    have hbuysOf : totalQty (buysOf (o :: rest))
        = (if o.side = OrderSide.BUY then o.quantity else 0) + totalQty (buysOf rest) := by
      unfold buysOf totalQty
      rcases hside : o.side <;> simp [List.filter_cons, hside]
    have hsellsOf : totalQty (sellsOf (o :: rest))
        = (if o.side = OrderSide.SELL then o.quantity else 0) + totalQty (sellsOf rest) := by
      unfold sellsOf totalQty
      rcases hside : o.side <;> simp [List.filter_cons, hside]
    simp only [List.foldl_cons]
    constructor <;> omega

theorem processOrders_conserve (orders : List Order) :
    totalQty (buysOf orders)
        = totalTradeQty (processOrders true orders).trades
          + totalQty (processOrders true orders).buys
      ∧ totalQty (sellsOf orders)
        = totalTradeQty (processOrders true orders).trades
          + totalQty (processOrders true orders).sells := by
  have := processOrders_conserve_aux orders ⟨[], [], []⟩
  unfold processOrders
  simp only [totalQty, totalTradeQty, List.map_nil, List.sum_nil] at this ⊢
  omega

theorem submitStep_callback_free (r1 r2 : MatchResult) (o : Order)
    (hb : r1.buys = r2.buys) (hs : r1.sells = r2.sells) :
    (submitStep false r1 o).buys = (submitStep true r2 o).buys
      ∧ (submitStep false r1 o).sells = (submitStep true r2 o).sells
      ∧ (submitStep false r1 o).trades = r1.trades := by
  unfold submitStep processOrder
  rw [hb, hs]
  cases o.side
  · have := matchFuel_callback_free ((insertBuy o r2.buys).length + r2.sells.length)
      (insertBuy o r2.buys) r2.sells
    unfold matchOrders
    simp_all
  · have := matchFuel_callback_free (r2.buys.length + (insertSell o r2.sells).length)
      r2.buys (insertSell o r2.sells)
    unfold matchOrders
    simp_all

theorem processOrders_callback_free_aux :
    ∀ (orders : List Order) (r1 r2 : MatchResult),
      r1.buys = r2.buys → r1.sells = r2.sells →
      (orders.foldl (submitStep false) r1).buys = (orders.foldl (submitStep true) r2).buys
        ∧ (orders.foldl (submitStep false) r1).sells
          = (orders.foldl (submitStep true) r2).sells
        ∧ (orders.foldl (submitStep false) r1).trades = r1.trades := by
  intro orders
  induction orders with
  | nil => intro r1 r2 hb hs; exact ⟨hb, hs, rfl⟩
  | cons o rest ih =>
    intro r1 r2 hb hs
    have hstep := submitStep_callback_free r1 r2 o hb hs
    have hrest := ih (submitStep false r1 o) (submitStep true r2 o) hstep.1 hstep.2.1
    simp only [List.foldl_cons]
    exact ⟨hrest.1, hrest.2.1, by rw [hrest.2.2, hstep.2.2]⟩

theorem processOrders_sell_provenance_aux (P : Nat → ℚ → Prop) :
    ∀ (orders : List Order) (r : MatchResult),
      (∀ o ∈ orders, o.side = OrderSide.SELL → P o.id o.price) →
      (∀ o ∈ r.sells, P o.id o.price) →
      (∀ t ∈ r.trades, P t.sell_order_id t.price) →
      (∀ o ∈ (orders.foldl (submitStep true) r).sells, P o.id o.price)
        ∧ (∀ t ∈ (orders.foldl (submitStep true) r).trades, P t.sell_order_id t.price) := by
  intro orders
  induction orders with
  | nil => intro r _ hsells htrades; exact ⟨hsells, htrades⟩
  | cons o rest ih =>
    intro r hpool hsells htrades
    have hpool2 : ∀ x ∈ rest, x.side = OrderSide.SELL → P x.id x.price := by
      intro x hx
      exact hpool x (List.mem_cons_of_mem _ hx)
    have hstep :
        (∀ x ∈ (submitStep true r o).sells, P x.id x.price)
          ∧ (∀ t ∈ (submitStep true r o).trades, P t.sell_order_id t.price) := by
      cases hside : o.side
      case BUY =>
        have heq : submitStep true r o
            = ⟨(matchOrders true (insertBuy o r.buys) r.sells).buys,
               (matchOrders true (insertBuy o r.buys) r.sells).sells,
               r.trades ++ (matchOrders true (insertBuy o r.buys) r.sells).trades⟩ := by
          simp [submitStep, processOrder, hside]
        have hprov := matchFuel_sell_provenance true P
          ((insertBuy o r.buys).length + r.sells.length) (insertBuy o r.buys) r.sells hsells
        rw [heq]
        unfold matchOrders
        refine ⟨fun x hx => hprov.1 x hx, fun t ht => ?_⟩
        rcases List.mem_append.mp ht with h | h
        · exact htrades t h
        · exact hprov.2 t h
      case SELL =>
        have hins : ∀ x ∈ insertSell o r.sells, P x.id x.price := by
          intro x hx
          rcases mem_insertSell hx with h | h
          · rw [h]; exact hpool o (List.mem_cons_self _ _) hside
          · exact hsells x h
        have heq : submitStep true r o
            = ⟨(matchOrders true r.buys (insertSell o r.sells)).buys,
               (matchOrders true r.buys (insertSell o r.sells)).sells,
               r.trades ++ (matchOrders true r.buys (insertSell o r.sells)).trades⟩ := by
          simp [submitStep, processOrder, hside]
        have hprov := matchFuel_sell_provenance true P
          (r.buys.length + (insertSell o r.sells).length) r.buys (insertSell o r.sells) hins
        rw [heq]
        unfold matchOrders
        refine ⟨fun x hx => hprov.1 x hx, fun t ht => ?_⟩
        rcases List.mem_append.mp ht with h | h
        · exact htrades t h
        · exact hprov.2 t h
    simp only [List.foldl_cons]
    exact ih (submitStep true r o) hpool2 hstep.1 hstep.2


/-! ## String-scanning lemmas for the decoder -/

theorem dblOverflowBound_eq : dblOverflowBound = mkRat (2 ^ 1024 - 2 ^ 970) 1 := by
  rw [show ((2 : Int) ^ 1024 - 2 ^ 970)
      = 179769313486231580793728971405303415079934132710037826936173778980444968292764750946649017977587207096330286416692887910946555547851940402630657488671505820681908902000708383676273854845817711531764475730270069855571366959622842914819860834936475292719074168444365510704342711559699508093042880177904174497792 from by norm_num]
  rfl

theorem dblUnderflowBound_eq : dblUnderflowBound = mkRat (2 ^ 53 - 1) (2 ^ 1075) := by
  rw [show ((2 : Int) ^ 53 - 1) = 9007199254740991 from by norm_num,
    show ((2 : Nat) ^ 1075)
      = 404804506614621236704990693437834614099113299528284236713802716054860679135990693783920767402874248990374155728633623822779617474771586953734026799881477019843034848553132722728933815484186432682479535356945490137124014966849385397236206711298319112681620113024717539104666829230461005064372655017292012526615415482186989568 from by norm_num]
  rfl

/-! ## Rejection behaviour of `parseOrder` -/

/-- C1 counterexample: the claim says the execution price is the price of
the order that arrived first (the maker) on both sides.  Submitting
`buy(100, 10)` (order 1, arrives first and rests) and then `sell(99, 5)`
(order 2, the aggressor) produces one trade between orders 1 and 2 at
price 99 — the *later-arrived sell's* price — not at the resting buy's
price 100, because `OrderBook::executeTrade` always uses
`sell_order.price`. -/
theorem claim_C1_counterexample :
    (processOrders true c1Orders).trades = [⟨1, 2, 99, 5⟩]
      ∧ ¬ ((99 : ℚ) = 100) := by
  constructor
  · decide
  · decide

/-- C1 (amended): every trade emitted by the matching engine carries the
id and the price of the matched *sell-side* order (`sell_order.price` in
`OrderBook::executeTrade`), which is the maker's price when a buy crosses
a resting sell, but the aggressor's price when a sell crosses a resting
buy at a better bid. -/
theorem claim_C1_amended (orders : List Order) (t : Trade)
    (ht : t ∈ (processOrders true orders).trades) :
    ∃ o ∈ orders, o.side = OrderSide.SELL ∧ o.id = t.sell_order_id ∧ o.price = t.price := by
  have haux := processOrders_sell_provenance_aux
    (fun i p => ∃ o ∈ orders, o.side = OrderSide.SELL ∧ o.id = i ∧ o.price = p)
    orders ⟨[], [], []⟩
    (fun o ho hs => ⟨o, ho, hs, rfl, rfl⟩)
    (by intro o ho; simp at ho)
    (by intro t2 ht2; simp at ht2)
  exact haux.2 t ht

/-- Witness for `claim_C1_amended`: a full fill `buy(100,10)` then
`sell(100,10)` emits one trade, and it indeed carries the sell order's id
and price. -/
theorem claim_C1_amended_witness :
    ∃ o ∈ [(⟨1, OrderSide.BUY, 100, 10⟩ : Order), ⟨2, OrderSide.SELL, 100, 10⟩],
      o.side = OrderSide.SELL ∧ o.id = (⟨1, 2, 100, 10⟩ : Trade).sell_order_id
        ∧ o.price = (⟨1, 2, 100, 10⟩ : Trade).price :=
  claim_C1_amended
    [⟨1, OrderSide.BUY, 100, 10⟩, ⟨2, OrderSide.SELL, 100, 10⟩]
    ⟨1, 2, 100, 10⟩ (by decide)

/-- C2: non-crossing at rest.  After any finite submission sequence has
been fully processed, every resting bid is strictly below every resting
ask; in particular either one book is empty or the best (highest) bid is
strictly below the best (lowest) ask. -/
theorem claim_C2_noncrossing (orders : List Order) (b s : Order)
    (hb : b ∈ (processOrders true orders).buys)
    (hs : s ∈ (processOrders true orders).sells) :
    b.price < s.price :=
  processOrders_noncross true orders b hb s hs

/-- Witness for `claim_C2_noncrossing`: scenario S5 — `buy(99,10)` and
`sell(101,10)` both rest, and the resting bid is below the resting ask. -/
theorem claim_C2_noncrossing_witness :
    (⟨1, OrderSide.BUY, 99, 10⟩ : Order).price < (⟨2, OrderSide.SELL, 101, 10⟩ : Order).price :=
  claim_C2_noncrossing
    [⟨1, OrderSide.BUY, 99, 10⟩, ⟨2, OrderSide.SELL, 101, 10⟩]
    ⟨1, OrderSide.BUY, 99, 10⟩ ⟨2, OrderSide.SELL, 101, 10⟩
    (by decide) (by decide)

/-- C3: conservation of quantity, per side.  For every finite submission
sequence, the quantity submitted on a side equals the quantity traded plus
the quantity left resting in that side's book once processing completes. -/
theorem claim_C3_conservation (orders : List Order) :
    totalQty (buysOf orders)
        = totalTradeQty (processOrders true orders).trades
          + totalQty (processOrders true orders).buys
      ∧ totalQty (sellsOf orders)
        = totalTradeQty (processOrders true orders).trades
          + totalQty (processOrders true orders).sells :=
  processOrders_conserve orders

/-- C4: price-time priority with FIFO within a price level.  First, at
every matching step the head orders of the two books (highest bid, lowest
ask, earliest within the level) produce the first trade.  Second, in
scenario S6 — `buy(100,5)` as A, `buy(100,5)` as B, `sell(100,5)` —
exactly one trade is emitted, it fully consumes A (order 1), and B
(order 2) remains resting with quantity 5. -/
theorem claim_C4_price_time_fifo :
    (∀ (b s : Order) (bs ss : List Order), ¬ b.price < s.price →
        (matchOrders true (b :: bs) (s :: ss)).trades.head?
          = some ⟨b.id, s.id, s.price, tradeQty b s⟩)
      ∧ processOrders true c4Orders
          = ⟨[⟨2, OrderSide.BUY, 100, 5⟩], [], [⟨1, 3, 100, 5⟩]⟩ := by
  constructor
  · intro b s bs ss hp
    have hlen : (b :: bs).length + (s :: ss).length = bs.length + ss.length + 1 + 1 := by
      simp
      omega
    unfold matchOrders
    rw [hlen]
    simp [matchFuel, if_neg hp, executeTrade]
  · decide

/-- Witness for `claim_C4_price_time_fifo`: with resting books
`[buy(100,5)]` and `[sell(100,5)]` the first (and only) trade is between
the two heads at the sell's price. -/
theorem claim_C4_price_time_fifo_witness :
    (matchOrders true [⟨1, OrderSide.BUY, 100, 5⟩] [⟨2, OrderSide.SELL, 100, 5⟩]).trades.head?
      = some ⟨1, 2, 100, 5⟩ :=
  claim_C4_price_time_fifo.1 ⟨1, OrderSide.BUY, 100, 5⟩ ⟨2, OrderSide.SELL, 100, 5⟩ [] []
    (by decide)

/-- C5: walking the book (scenario S4).  Seeding `sell(100.00, 3)`,
`sell(100.50, 4)`, `sell(101.00, 5)` (prices written as the exact
rationals `100`, `201/2`, `101`) and submitting `buy(100.75, 5)` emits
exactly two trades, in order: quantity 3 at 100.00 (= min(5,3)), then
quantity 2 at 100.50 (= min(2,4)); afterwards the sell book holds exactly
`sell(100.50, qty 2)` then `sell(101.00, qty 5)` and the buy book is
empty. -/
theorem claim_C5_walk_the_book :
    processOrders true c5Orders
      = ⟨[], [⟨2, OrderSide.SELL, mkRat 201 2, 2⟩, ⟨3, OrderSide.SELL, 101, 5⟩],
         [⟨4, 1, 100, 3⟩, ⟨4, 2, mkRat 201 2, 2⟩]⟩ := by
  decide

/-- C9: termination of the matching loop.  First, for every finite book
state the loop reaches its exit condition within `buys.length +
sells.length` iterations (so any larger fuel computes the same result as
`matchOrders`).  Second, each crossing iteration strictly decreases the
pair (total remaining quantity, number of resting orders)
lexicographically: a positive traded quantity strictly decreases the total
remaining quantity, and a zero traded quantity (possible only for
zero-quantity resting orders) keeps the total while removing at least one
order from a book. -/
theorem claim_C9_termination :
    (∀ (cb : Bool) (buys sells : List Order) (k : Nat),
        buys.length + sells.length ≤ k →
        matchFuel cb k buys sells = matchOrders cb buys sells)
      ∧ (∀ (b s : Order) (bs ss : List Order), ¬ b.price < s.price →
          (0 < tradeQty b s →
            totalQty (eraseFilled (fillOrder b (tradeQty b s)) bs)
                + totalQty (eraseFilled (fillOrder s (tradeQty b s)) ss)
              < totalQty (b :: bs) + totalQty (s :: ss))
          ∧ (tradeQty b s = 0 →
              totalQty (eraseFilled (fillOrder b (tradeQty b s)) bs)
                  + totalQty (eraseFilled (fillOrder s (tradeQty b s)) ss)
                = totalQty (b :: bs) + totalQty (s :: ss))
          ∧ (eraseFilled (fillOrder b (tradeQty b s)) bs).length
              + (eraseFilled (fillOrder s (tradeQty b s)) ss).length
            < (b :: bs).length + (s :: ss).length) := by
  constructor
  · intro cb buys sells k hk
    exact matchFuel_stable cb buys sells k hk
  · intro b s bs ss _
    have hqb : tradeQty b s ≤ b.quantity := Nat.min_le_left _ _
    have hqs : tradeQty b s ≤ s.quantity := Nat.min_le_right _ _
    have hb := eraseFilled_totalQty b (tradeQty b s) bs hqb
    have hs := eraseFilled_totalQty s (tradeQty b s) ss hqs
    refine ⟨fun hpos => by omega, fun hzero => by omega, step_length b s bs ss⟩

/-- Witness for `claim_C9_termination`: the singleton crossing books
`[buy(100,5)]`, `[sell(100,3)]` — extra fuel changes nothing, the
iteration strictly decreases total quantity, and it removes an order. -/
theorem claim_C9_termination_witness :
    matchFuel true 7 [(⟨1, OrderSide.BUY, 100, 5⟩ : Order)] [(⟨2, OrderSide.SELL, 100, 3⟩ : Order)]
        = matchOrders true [⟨1, OrderSide.BUY, 100, 5⟩] [⟨2, OrderSide.SELL, 100, 3⟩]
      ∧ (0 < tradeQty ⟨1, OrderSide.BUY, 100, 5⟩ ⟨2, OrderSide.SELL, 100, 3⟩ →
          totalQty (eraseFilled (fillOrder ⟨1, OrderSide.BUY, 100, 5⟩
                (tradeQty ⟨1, OrderSide.BUY, 100, 5⟩ ⟨2, OrderSide.SELL, 100, 3⟩)) [])
              + totalQty (eraseFilled (fillOrder ⟨2, OrderSide.SELL, 100, 3⟩
                (tradeQty ⟨1, OrderSide.BUY, 100, 5⟩ ⟨2, OrderSide.SELL, 100, 3⟩)) [])
            < totalQty [⟨1, OrderSide.BUY, 100, 5⟩] + totalQty [⟨2, OrderSide.SELL, 100, 3⟩]) :=
  ⟨claim_C9_termination.1 true [⟨1, OrderSide.BUY, 100, 5⟩] [⟨2, OrderSide.SELL, 100, 3⟩] 7
      (by decide),
   (claim_C9_termination.2 ⟨1, OrderSide.BUY, 100, 5⟩ ⟨2, OrderSide.SELL, 100, 3⟩ [] []
      (by decide)).1⟩

/-- C10: processing is callback-free on the books.  Without an installed
trade callback (`cb = false`) `executeTrade` silently skips emission, no
step can fault (the embedding is total), and the two books evolve exactly
as they do with a callback installed: after any submission sequence the
resting orders coincide and no trade was emitted. -/
theorem claim_C10_no_callback (orders : List Order) :
    (processOrders false orders).buys = (processOrders true orders).buys
      ∧ (processOrders false orders).sells = (processOrders true orders).sells
      ∧ (processOrders false orders).trades = [] := by
  have haux := processOrders_callback_free_aux orders ⟨[], [], []⟩ ⟨[], [], []⟩ rfl rfl
  exact haux

/-! ## Latency statistics lemmas -/

theorem foldl_min_le_init : ∀ (l : List Nat) (a : Nat), l.foldl min a ≤ a := by
  intro l
  induction l with
  | nil => intro a; exact Nat.le_refl a
  | cons x xs ih =>
    intro a
    exact Nat.le_trans (ih (min a x)) (Nat.min_le_left a x)

theorem foldl_min_le_mem : ∀ (l : List Nat) (a x : Nat), x ∈ l → l.foldl min a ≤ x := by
  intro l
  induction l with
  | nil => intro a x hx; simp at hx
  | cons y ys ih =>
    intro a x hx
    rcases List.mem_cons.mp hx with h | h
    · subst h
      exact Nat.le_trans (foldl_min_le_init ys (min a x)) (Nat.min_le_right a x)
    · exact ih (min a y) x h

theorem le_foldl_max_init : ∀ (l : List Nat) (a : Nat), a ≤ l.foldl max a := by
  intro l
  induction l with
  | nil => intro a; exact Nat.le_refl a
  | cons x xs ih =>
    intro a
    exact Nat.le_trans (Nat.le_max_left a x) (ih (max a x))

theorem le_foldl_max_mem : ∀ (l : List Nat) (a x : Nat), x ∈ l → x ≤ l.foldl max a := by
  intro l
  induction l with
  | nil => intro a x hx; simp at hx
  | cons y ys ih =>
    intro a x hx
    rcases List.mem_cons.mp hx with h | h
    · subst h
      exact Nat.le_trans (Nat.le_max_right a x) (le_foldl_max_init ys (max a x))
    · exact ih (max a y) x h

theorem length_mul_le_sum (l : List Nat) (m : Nat) (h : ∀ x ∈ l, m ≤ x) :
    l.length * m ≤ l.sum := by
  induction l with
  | nil => simp
  | cons x xs ih =>
    have hx := h x (List.mem_cons_self _ _)
    have hxs := ih (fun y hy => h y (List.mem_cons_of_mem _ hy))
    simp only [List.length_cons, List.sum_cons, Nat.succ_mul]
    omega

theorem sum_le_length_mul (l : List Nat) (m : Nat) (h : ∀ x ∈ l, x ≤ m) :
    l.sum ≤ l.length * m := by
  induction l with
  | nil => simp
  | cons x xs ih =>
    have hx := h x (List.mem_cons_self _ _)
    have hxs := ih (fun y hy => h y (List.mem_cons_of_mem _ hy))
    simp only [List.length_cons, List.sum_cons, Nat.succ_mul]
    omega

theorem foldl_record_spec :
    ∀ (samples : List Nat) (st : LatencyStats),
      st.total_orders < 2 ^ 64 → st.total_latency_ns < 2 ^ 64 →
      (samples.foldl recordLatency st).total_orders
          = (st.total_orders + samples.length) % 2 ^ 64
        ∧ (samples.foldl recordLatency st).total_latency_ns
          = (st.total_latency_ns + samples.sum) % 2 ^ 64
        ∧ (samples.foldl recordLatency st).min_latency_ns
          = samples.foldl min st.min_latency_ns
        ∧ (samples.foldl recordLatency st).max_latency_ns
          = samples.foldl max st.max_latency_ns := by
  intro samples
  induction samples with
  | nil =>
    intro st hto htl
    refine ⟨?_, ?_, rfl, rfl⟩ <;>
      simp only [List.foldl_nil, List.length_nil, List.sum_nil, Nat.add_zero] <;> omega
  | cons x xs ih =>
    intro st hto htl
    have hstep := ih (recordLatency st x)
      (Nat.mod_lt _ (by norm_num)) (Nat.mod_lt _ (by norm_num))
    simp only [List.foldl_cons, List.length_cons, List.sum_cons]
    refine ⟨?_, ?_, hstep.2.2.1, hstep.2.2.2⟩
    · rw [hstep.1]
      show ((st.total_orders + 1) % 2 ^ 64 + xs.length) % 2 ^ 64 = _
      rw [Nat.mod_add_mod]
      omega
    · rw [hstep.2.1]
      show ((st.total_latency_ns + x) % 2 ^ 64 + xs.sum) % 2 ^ 64 = _
      rw [Nat.mod_add_mod]
      omega

theorem runLatencies_spec (samples : List Nat) :
    (runLatencies samples).total_orders = samples.length % 2 ^ 64
      ∧ (runLatencies samples).total_latency_ns = samples.sum % 2 ^ 64
      ∧ (runLatencies samples).min_latency_ns = samples.foldl min (2 ^ 64 - 1)
      ∧ (runLatencies samples).max_latency_ns = samples.foldl max 0 := by
  have h := foldl_record_spec samples LatencyStats.init
    (by simp [LatencyStats.init]) (by simp [LatencyStats.init])
  simpa [runLatencies, LatencyStats.init] using h

/-- C7 counterexample: two `recordLatency` calls of `2^63` ns each wrap
the `uint64_t` running sum to zero, so the readable average drops to `0`
while the readable minimum is `2^63 / 1000` microseconds: `min ≤ average`
fails at that read. -/
theorem claim_C7_counterexample :
    ¬ getMinLatencyUs c7Overflow ≤ getAverageLatencyUs c7Overflow := by
  have hc : c7Overflow = ⟨2, 0, 2 ^ 63, 2 ^ 63⟩ := by decide
  rw [hc]
  unfold getMinLatencyUs getAverageLatencyUs
  norm_num

/-- C7 (amended): latency monotonicity holds at every read whose recorded
sum and count have not wrapped around `uint64_t`: after any sequence of
`recordLatency` calls with fewer than `2^64` samples and a total below
`2^64` ns, the readable statistics satisfy `min ≤ average ≤ max`, where
the average is the recorded sum divided by the recorded count; with no
records all three getters default to `0`, which also satisfies the
inequality. -/
theorem claim_C7_latency_monotonicity (samples : List Nat)
    (hnum : samples.length < 2 ^ 64) (hsum : samples.sum < 2 ^ 64) :
    getMinLatencyUs (runLatencies samples) ≤ getAverageLatencyUs (runLatencies samples)
      ∧ getAverageLatencyUs (runLatencies samples) ≤ getMaxLatencyUs (runLatencies samples) := by
  obtain ⟨hto, htl, hmin, hmax⟩ := runLatencies_spec samples
  rw [Nat.mod_eq_of_lt hnum] at hto
  rw [Nat.mod_eq_of_lt hsum] at htl
  unfold getMinLatencyUs getAverageLatencyUs getMaxLatencyUs
  rw [hto, htl, hmin, hmax]
  match samples with
  | [] => norm_num
  | x :: xs =>
    have hn : 0 < (x :: xs).length := by simp
    have hnQ : (0 : ℚ) < ((x :: xs).length : ℚ) := by exact_mod_cast hn
    have h1000n : (0 : ℚ) < 1000 * ((x :: xs).length : ℚ) := by positivity
    have hsnn : (0 : ℚ) ≤ ((x :: xs).sum : ℚ) := by positivity
    rw [if_pos hn]
    constructor
    · split
      case isTrue hne =>
        have hlb : (x :: xs).length * ((x :: xs).foldl min (2 ^ 64 - 1)) ≤ (x :: xs).sum :=
          length_mul_le_sum _ _ (fun y hy => foldl_min_le_mem _ _ y hy)
        have hlbQ : ((x :: xs).length : ℚ) * (((x :: xs).foldl min (2 ^ 64 - 1) : Nat) : ℚ)
            ≤ ((x :: xs).sum : ℚ) := by exact_mod_cast hlb
        rw [div_div, div_le_div_iff (by norm_num) h1000n]
        nlinarith
      case isFalse =>
        positivity
    · have hub : (x :: xs).sum ≤ (x :: xs).length * ((x :: xs).foldl max 0) :=
        sum_le_length_mul _ _ (fun y hy => le_foldl_max_mem _ _ y hy)
      have hubQ : ((x :: xs).sum : ℚ)
          ≤ ((x :: xs).length : ℚ) * (((x :: xs).foldl max 0 : Nat) : ℚ) := by exact_mod_cast hub
      rw [div_div, div_le_div_iff h1000n (by norm_num)]
      nlinarith

/-- Witness for `claim_C7_latency_monotonicity`: after recording 5 ns and
3 ns the readable statistics satisfy both inequalities. -/
theorem claim_C7_latency_monotonicity_witness :
    getMinLatencyUs (runLatencies [5, 3]) ≤ getAverageLatencyUs (runLatencies [5, 3])
      ∧ getAverageLatencyUs (runLatencies [5, 3]) ≤ getMaxLatencyUs (runLatencies [5, 3]) :=
  claim_C7_latency_monotonicity [5, 3] (by norm_num) (by norm_num)

/-- C8: `parseOrder` performs no positivity validation.  The well-formed
line `{"side":"buy","price":100.5,"quantity":0}` yields an `Order` with
quantity `0`, and `{"side":"sell","price":-5.25,"quantity":10}` yields an
`Order` with the negative price `-21/4`, instead of either line being
rejected. -/
theorem claim_C8_no_positivity_validation :
    parseOrder 1 c8ZeroQtyLine = some ⟨1, OrderSide.BUY, StodVal.fin (mkRat 201 2), 0⟩
      ∧ parseOrder 1 c8NegPriceLine
          = some ⟨1, OrderSide.SELL, StodVal.fin (mkRat (-21) 4), 10⟩
      ∧ mkRat (-21) 4 < 0 := by
  exact ⟨by decide, by decide, by decide⟩

end OrderEngine
